import Mathlib

set_option maxRecDepth 8000

/-!
Shallow embedding of the shadow-memory tracker from `src/main.rs` (pre-1.0
Rust; `uint` is the 64-bit pointer-sized unsigned integer on the targets the
code was written for).  Machine integers are modelled as `Nat`; the two's
complement constants appearing in the source (`0 - 8`, `-1 as u64`) are
written out as the `Nat` values they denote on 64-bit unsigned arithmetic
(`2 ^ 64 - 8`, `2 ^ 64 - 1`).  Fixed-size arrays (`[u8, ..PAGE_SIZE]`) are
modelled as total functions together with bounds-checked read operations;
a read outside the array bounds yields `none`, modelling the runtime panic
of an out-of-bounds index.  Consequently all fallible operations return
`Option Bool`, where `none` means abnormal termination (an index panic).
The two source loops are written with an explicit iteration bound (`fuel`);
the top-level wrappers supply a bound that is never exhausted for the
inputs the program contract allows (`begin ≤ end`, addresses below `2^64`),
as the loop index strictly increases at every iteration there.
-/

namespace Shadowmap

/-- `const PAGE_SIZE: uint = 0x1000;` -/
def PAGE_SIZE : Nat := 0x1000

/-- `const MASK: [u8, ..8] = [0x01, 0x02, 0x04, 0x08, 0x10, 0x20, 0x40, 0x80];` -/
def MASK : List Nat := [0x01, 0x02, 0x04, 0x08, 0x10, 0x20, 0x40, 0x80]

/-- `align_8!(inp) = inp & (0 - 8)` on `uint`: `0 - 8` wraps to `2^64 - 8`. -/
def align_8 (inp : Nat) : Nat := inp &&& (2 ^ 64 - 8)

/-- `align_next_8!(inp) = (inp + (8 - 1)) & (0 - 8)` on `uint`. -/
def align_next_8 (inp : Nat) : Nat := (inp + (8 - 1)) &&& (2 ^ 64 - 8)

/-- `ShadowManager::get_page_offset`: `offset & (-1 as u64 - PAGE_SIZE as u64 + 1)`.
`-1 as u64` is `2^64 - 1`, so the mask is `2^64 - PAGE_SIZE`. -/
def get_page_offset (offset : Nat) : Nat := offset &&& (2 ^ 64 - 1 - PAGE_SIZE + 1)

/-- `ShadowManager::get_bit_index`: `(rel_offs / 8, rel_offs % 8)`. -/
def get_bit_index (rel_offs : Nat) : Nat × Nat := (rel_offs / 8, rel_offs % 8)

/-- `struct ShadowPage { buf: [u8, ..PAGE_SIZE], map: [u8, ..PAGE_SIZE / 8] }`.
The fixed-size arrays are modelled as functions; reads go through the
bounds-checked accessors below. -/
structure ShadowPage where
  buf : Nat → Nat
  map : Nat → Nat

/-- Bounds-checked read of `self.map[i]` (array of length `PAGE_SIZE / 8`);
`none` models the index-out-of-bounds panic. -/
def ShadowPage.mapGet (sp : ShadowPage) (i : Nat) : Option Nat :=
  if i < PAGE_SIZE / 8 then some (sp.map i) else none

/-- Bounds-checked read of `self.buf[i]` (array of length `PAGE_SIZE`). -/
def ShadowPage.bufGet (sp : ShadowPage) (i : Nat) : Option Nat :=
  if i < PAGE_SIZE then some (sp.buf i) else none

/-- `ShadowPage::has_patch`. -/
def ShadowPage.has_patch (sp : ShadowPage) (rel_offs : Nat) : Option Bool :=
  let bit_idx := rel_offs / 8
  match sp.mapGet bit_idx with
  | none => none
  | some m =>
    if m = 0 then
      some false
    else
      match MASK[rel_offs % 8]? with
      | none => none
      | some msk => some (decide (m &&& msk ≠ 0))

/-- The `while i <= end` loop of `ShadowPage::has_patch_in_range`.  `fuel`
bounds the number of iterations; the wrapper supplies `end + 2`, which is
never exhausted because `i` strictly increases at each iteration for the
in-bounds indices at which the loop can continue. -/
def pageRangeLoop (sp : ShadowPage) (endv : Nat) : Nat → Nat → Option Bool
  | _, 0 => none
  | i, fuel + 1 =>
    if i ≤ endv then
      let i_aligned := align_8 i
      match sp.mapGet (i_aligned / 8) with
      | none => none
      | some m =>
        if m > 0 then
          let bit_idx := i - i_aligned
          match MASK[bit_idx]? with
          | none => none
          | some msk =>
            if m &&& msk ≠ 0 then some true
            else pageRangeLoop sp endv (i + 1) fuel
        else
          pageRangeLoop sp endv (align_next_8 (i + 1)) fuel
    else
      some false

/-- `ShadowPage::has_patch_in_range((beg, end))`. -/
def ShadowPage.has_patch_in_range (sp : ShadowPage) (beg endv : Nat) : Option Bool :=
  pageRangeLoop sp endv beg (endv + 2)

/-- `struct ShadowManager { pages: HashMap<u64, ShadowPage> }`; the hash map
is modelled as a function from keys to optional pages. -/
structure ShadowManager where
  pages : Nat → Option ShadowPage

/-- `ShadowManager::new`. -/
def ShadowManager.new : ShadowManager := ⟨fun _ => none⟩

/-- `ShadowManager::add_byte`.  The insert-if-absent step and the
read-modify-write updates `buf[rel_offs] = byte`,
`map[rel_offs / 8] |= 1 << bit_idx` are modelled as function updates
(the written indices satisfy `rel_offs < PAGE_SIZE` for every `u64`
offset, so the array writes are in bounds). -/
def ShadowManager.add_byte (m : ShadowManager) (offset byte : Nat) : ShadowManager :=
  let page_offs := get_page_offset offset
  let rel_offs := offset - page_offs
  let bit_idx := (get_bit_index rel_offs).2
  let pages0 : Nat → Option ShadowPage :=
    if (m.pages page_offs).isSome then m.pages
    else fun k => if k = page_offs then some ⟨fun _ => 0, fun _ => 0⟩ else m.pages k
  match pages0 page_offs with
  | none => m
  | some sp =>
    let sp2 : ShadowPage :=
      { buf := fun j => if j = rel_offs then byte else sp.buf j
        map := fun j =>
          if j = rel_offs / 8 then sp.map (rel_offs / 8) ||| (1 <<< bit_idx)
          else sp.map j }
    { pages := fun k => if k = page_offs then some sp2 else pages0 k }

/-- `ShadowManager::has_patch`. -/
def ShadowManager.has_patch (m : ShadowManager) (abs_offset : Nat) : Option Bool :=
  let page_offs := get_page_offset abs_offset
  let rel_offs := abs_offset - page_offs
  match m.pages page_offs with
  | some sm => sm.has_patch rel_offs
  | none => some false

/-- The `loop` of `ShadowManager::has_patch_in_range`, iterating page by page.
`fuel` bounds the number of iterations; the wrapper supplies
`(last_page - first_page) / PAGE_SIZE + 1`, exactly the number of pages in
the span when `beg ≤ end`. -/
def mgrRangeLoop (pages : Nat → Option ShadowPage) (beg endv last_page : Nat) :
    Nat → Bool → Nat → Option Bool
  | _, _, 0 => none
  | cur_page, on_first, fuel + 1 =>
    match pages cur_page with
    | none => some false
    | some sm =>
      if on_first = true ∧ cur_page = last_page then
        let beg_rel := beg - cur_page
        let end_rel := endv - cur_page
        if beg_rel = end_rel then sm.has_patch beg_rel
        else sm.has_patch_in_range beg_rel end_rel
      else if on_first = true then
        match sm.has_patch_in_range (beg - cur_page) PAGE_SIZE with
        | none => none
        | some true => some true
        | some false =>
          if cur_page = last_page then sm.has_patch_in_range 0 (endv - cur_page)
          else mgrRangeLoop pages beg endv last_page (cur_page + PAGE_SIZE) false fuel
      else if cur_page = last_page then
        sm.has_patch_in_range 0 (endv - cur_page)
      else
        mgrRangeLoop pages beg endv last_page (cur_page + PAGE_SIZE) on_first fuel

/-- `ShadowManager::has_patch_in_range((beg, end))`. -/
def ShadowManager.has_patch_in_range (m : ShadowManager) (beg endv : Nat) : Option Bool :=
  let first_page := get_page_offset beg
  let last_page := get_page_offset endv
  mgrRangeLoop m.pages beg endv last_page first_page true
    ((last_page - first_page) / PAGE_SIZE + 1)

/-- The byte the manager currently stores for address `b`: the owning page's
buffer at offset `b mod PAGE_SIZE`, or `none` when that page is absent. -/
def stored_byte (m : ShadowManager) (b : Nat) : Option Nat :=
  match m.pages (get_page_offset b) with
  | none => none
  | some sp => sp.bufGet (b % PAGE_SIZE)

/-- The dirty bit of a page at in-page offset `j`, read without the zero-byte
short-circuit: bit `j % 8` of bitmap byte `j / 8`. -/
def pageMarked (sp : ShadowPage) (j : Nat) : Bool :=
  decide (sp.map (j / 8) &&& 2 ^ (j % 8) ≠ 0)

/-- Run a sequence of `add_byte` (record) operations from a given state. -/
def runOpsFrom (m : ShadowManager) (ops : List (Nat × Nat)) : ShadowManager :=
  ops.foldl (fun acc p => acc.add_byte p.1 p.2) m

/-- Run a sequence of `add_byte` (record) operations from a fresh manager. -/
def runOps (ops : List (Nat × Nat)) : ShadowManager :=
  runOpsFrom ShadowManager.new ops

/-- A record sequence is valid when every address is a `u64` and every value
a `u8`, as in the source signature `add_byte(offset: u64, byte: u8)`. -/
def ValidOps (ops : List (Nat × Nat)) : Prop :=
  ∀ p ∈ ops, p.1 < 2 ^ 64 ∧ p.2 < 256

instance (ops : List (Nat × Nat)) : Decidable (ValidOps ops) := by
  unfold ValidOps; infer_instance

/-! Arithmetic facts about the masking helpers. -/

/-- Masking with `2^w - 2^k` keeps exactly the bits `k ≤ i < w`, so on inputs
below `2^w` it rounds down to a multiple of `2^k`. -/
theorem land_high_mask (n k w : Nat) (hn : n < 2 ^ w) (hk : k ≤ w) :
    n &&& (2 ^ w - 2 ^ k) = 2 ^ k * (n / 2 ^ k) := by
  have hconst : 2 ^ w - 2 ^ k = (2 ^ (w - k) - 1) <<< k := by
    rw [Nat.shiftLeft_eq, Nat.sub_mul, Nat.one_mul, ← Nat.pow_add]
    congr 2
    omega
  have hrhs : 2 ^ k * (n / 2 ^ k) = (n >>> k) <<< k := by
    rw [Nat.shiftRight_eq_div_pow, Nat.shiftLeft_eq, Nat.mul_comm]
  rw [hconst, hrhs]
  apply Nat.eq_of_testBit_eq
  intro i
  rw [Nat.testBit_land, Nat.testBit_shiftLeft, Nat.testBit_shiftLeft,
    Nat.testBit_shiftRight, Nat.testBit_two_pow_sub_one]
  by_cases hik : k ≤ i
  · by_cases hiw : i < w
    · have h1 : i - k < w - k := by omega
      have h2 : k + (i - k) = i := by omega
      simp [hik, h1, h2, ge_iff_le]
    · have h1 : ¬ (i - k < w - k) := by omega
      have h2 : k + (i - k) = i := by omega
      have h3 : n.testBit i = false := by
        apply Nat.testBit_lt_two_pow
        calc n < 2 ^ w := hn
          _ ≤ 2 ^ i := Nat.pow_le_pow_right (by omega) (by omega)
      simp [h1, h2, h3, ge_iff_le, hik]
  · simp [ge_iff_le, hik]

theorem get_page_offset_eq (a : Nat) (h : a < 2 ^ 64) :
    get_page_offset a = PAGE_SIZE * (a / PAGE_SIZE) := by
  have hc : (2 : Nat) ^ 64 - 1 - PAGE_SIZE + 1 = 2 ^ 64 - 2 ^ 12 := by decide
  have hp : PAGE_SIZE = 2 ^ 12 := by decide
  rw [get_page_offset, hc, hp]
  exact land_high_mask a 12 64 h (by omega)

theorem PAGE_SIZE_eq : PAGE_SIZE = 4096 := rfl

theorem get_page_offset_le (a : Nat) (h : a < 2 ^ 64) : get_page_offset a ≤ a := by
  rw [get_page_offset_eq a h, PAGE_SIZE_eq]
  omega

theorem get_page_offset_rel (a : Nat) (h : a < 2 ^ 64) :
    a - get_page_offset a = a % PAGE_SIZE := by
  rw [get_page_offset_eq a h, PAGE_SIZE_eq]
  omega

theorem get_page_offset_mod (a : Nat) (h : a < 2 ^ 64) :
    get_page_offset a % PAGE_SIZE = 0 := by
  rw [get_page_offset_eq a h, PAGE_SIZE_eq]
  omega

theorem get_page_offset_mono (a b : Nat) (hab : a ≤ b) (h : b < 2 ^ 64) :
    get_page_offset a ≤ get_page_offset b := by
  rw [get_page_offset_eq a (by omega), get_page_offset_eq b h, PAGE_SIZE_eq]
  have := Nat.div_le_div_right (c := 4096) hab
  omega

/-- The page base of an in-page offset from an aligned base is that base. -/
theorem get_page_offset_add (p r : Nat) (hp : p % PAGE_SIZE = 0) (hr : r < PAGE_SIZE)
    (hlt : p + r < 2 ^ 64) : get_page_offset (p + r) = p := by
  rw [get_page_offset_eq (p + r) hlt, PAGE_SIZE_eq] at *
  omega

theorem align_8_eq (n : Nat) (h : n < 2 ^ 64) : align_8 n = 8 * (n / 8) := by
  have hc : (2 : Nat) ^ 64 - 8 = 2 ^ 64 - 2 ^ 3 := by decide
  rw [align_8, hc]
  exact land_high_mask n 3 64 h (by omega)

theorem align_next_8_eq (n : Nat) (h : n + 7 < 2 ^ 64) :
    align_next_8 n = 8 * ((n + 7) / 8) := by
  have hc : (2 : Nat) ^ 64 - 8 = 2 ^ 64 - 2 ^ 3 := by decide
  rw [align_next_8, hc]
  exact land_high_mask (n + 7) 3 64 h (by omega)

/-! Bit-level helper lemmas. -/

theorem pow_land_pow_ne (j k : Nat) (h : j ≠ k) : 2 ^ j &&& 2 ^ k = 0 := by
  apply Nat.eq_of_testBit_eq
  intro i
  rw [Nat.testBit_land, Nat.testBit_two_pow, Nat.testBit_two_pow, Nat.zero_testBit]
  by_cases hji : j = i
  · subst hji
    have hkj : ¬ (k = j) := fun hk => h hk.symm
    simp [hkj]
  · simp [hji]

theorem lor_pow_land_pow (m j k : Nat) (h : j ≠ k) :
    (m ||| 2 ^ j) &&& 2 ^ k = m &&& 2 ^ k := by
  apply Nat.eq_of_testBit_eq
  intro i
  rw [Nat.testBit_land, Nat.testBit_land, Nat.testBit_lor]
  by_cases hki : k = i
  · subst hki
    rw [Nat.testBit_two_pow_of_ne h]
    simp
  · rw [Nat.testBit_two_pow_of_ne hki]
    simp

theorem lor_pow_ne_zero (m j : Nat) : m ||| 2 ^ j ≠ 0 := by
  intro h
  have := congrArg (fun x => Nat.testBit x j) h
  simp only [Nat.testBit_lor, Nat.testBit_two_pow_self, Bool.or_true, Nat.zero_testBit] at this
  simp at this

theorem lor_pow_land_pow_self (m j : Nat) : (m ||| 2 ^ j) &&& 2 ^ j ≠ 0 := by
  intro h
  have := congrArg (fun x => Nat.testBit x j) h
  simp only [Nat.testBit_land, Nat.testBit_lor, Nat.testBit_two_pow_self, Bool.or_true,
    Bool.and_true, Nat.zero_testBit] at this
  simp at this

/-! Characterization of the page-level operations. -/

theorem MASK_get : ∀ k, k < 8 → MASK[k]? = some (2 ^ k) := by decide

/-- One unfolding of the page-level scan loop. -/
theorem pageRangeLoop_step (sp : ShadowPage) (endv i fuel : Nat) :
    pageRangeLoop sp endv i (fuel + 1) =
      if i ≤ endv then
        match sp.mapGet (align_8 i / 8) with
        | none => none
        | some m =>
          if m > 0 then
            match MASK[i - align_8 i]? with
            | none => none
            | some msk =>
              if m &&& msk ≠ 0 then some true
              else pageRangeLoop sp endv (i + 1) fuel
          else pageRangeLoop sp endv (align_next_8 (i + 1)) fuel
      else some false := rfl

/-- `ShadowPage::has_patch` agrees with the plain dirty-bit read for in-page
offsets (the zero-byte short-circuit does not change the answer). -/
theorem ShadowPage.has_patch_eq_marked (sp : ShadowPage) (j : Nat) (h : j < PAGE_SIZE) :
    sp.has_patch j = some (pageMarked sp j) := by
  have hidx : j / 8 < PAGE_SIZE / 8 := by
    rw [PAGE_SIZE_eq] at h ⊢; omega
  have hmask := MASK_get (j % 8) (Nat.mod_lt _ (by omega))
  unfold ShadowPage.has_patch
  have hmget : sp.mapGet (j / 8) = some (sp.map (j / 8)) := by
    unfold ShadowPage.mapGet; rw [if_pos hidx]
  dsimp only
  rw [hmget]
  dsimp only
  by_cases hm : sp.map (j / 8) = 0
  · rw [if_pos hm]
    unfold pageMarked
    rw [hm]
    simp
  · rw [if_neg hm, hmask]
    dsimp only
    unfold pageMarked
    rfl

/-- Arithmetic facts about one loop step at an in-range index. -/
theorem align_8_div (i : Nat) (h : i < 2 ^ 64) : align_8 i / 8 = i / 8 := by
  rw [align_8_eq i h]; omega

theorem align_8_sub (i : Nat) (h : i < 2 ^ 64) : i - align_8 i = i % 8 := by
  rw [align_8_eq i h]; omega

theorem align_next_8_succ (i : Nat) (h : i + 8 < 2 ^ 64) :
    align_next_8 (i + 1) = 8 * (i / 8) + 8 := by
  rw [align_next_8]
  have : i + 1 + (8 - 1) = i + 8 := by omega
  rw [this]
  have h8 : (2 : Nat) ^ 64 - 8 = 2 ^ 64 - 2 ^ 3 := by decide
  rw [h8, land_high_mask (i + 8) 3 64 h (by omega)]
  omega

/-- If some offset in `[i, endv]` is marked and `endv` is a valid in-page
offset, the scan loop reports a hit: the stride-skipping never jumps past a
marked offset. -/
theorem pageRangeLoop_finds (sp : ShadowPage) (endv j : Nat)
    (hj : j < PAGE_SIZE) (hjend : j ≤ endv) (hmark : pageMarked sp j = true) :
    ∀ fuel i, i ≤ j → endv + 2 - i ≤ fuel →
      pageRangeLoop sp endv i fuel = some true := by
  intro fuel
  induction fuel with
  | zero =>
    intro i hij hfuel
    omega
  | succ f ih =>
    intro i hij hfuel
    have hi : i ≤ endv := le_trans hij hjend
    have hiw : i < 2 ^ 64 := by rw [PAGE_SIZE_eq] at hj; omega
    have hbound : i / 8 < PAGE_SIZE / 8 := by
      rw [PAGE_SIZE_eq] at hj ⊢; omega
    have hmget : sp.mapGet (align_8 i / 8) = some (sp.map (i / 8)) := by
      rw [align_8_div i hiw]
      unfold ShadowPage.mapGet
      rw [if_pos hbound]
    rw [pageRangeLoop_step, if_pos hi, hmget]
    dsimp only
    by_cases hz : sp.map (i / 8) = 0
    · rw [if_neg (by omega : ¬ sp.map (i / 8) > 0)]
      -- the whole bitmap byte of `i` is zero, so `j` lies in a later byte
      have hjbyte : j / 8 ≠ i / 8 := by
        intro heq
        unfold pageMarked at hmark
        rw [heq, hz] at hmark
        simp at hmark
      have hjlow : 8 * (i / 8) + 8 ≤ j := by
        have h1 : i / 8 < j / 8 := by
          have := Nat.div_le_div_right (c := 8) hij
          omega
        have h2 : 8 * (j / 8) ≤ j := by omega
        omega
      have hnext : align_next_8 (i + 1) = 8 * (i / 8) + 8 :=
        align_next_8_succ i (by rw [PAGE_SIZE_eq] at hj; omega)
      rw [hnext]
      exact ih (8 * (i / 8) + 8) (by omega) (by omega)
    · rw [if_pos (by omega : sp.map (i / 8) > 0)]
      have hmask : MASK[i - align_8 i]? = some (2 ^ (i % 8)) := by
        rw [align_8_sub i hiw]
        exact MASK_get (i % 8) (Nat.mod_lt _ (by omega))
      rw [hmask]
      dsimp only
      by_cases hbit : sp.map (i / 8) &&& 2 ^ (i % 8) ≠ 0
      · rw [if_pos hbit]
      · rw [if_neg hbit]
        -- the bit of `i` is clear, so `i ≠ j` and the scan advances by one
        have hij2 : i ≠ j := by
          intro heq
          unfold pageMarked at hmark
          rw [← heq] at hmark
          simp only [decide_eq_true_eq] at hmark
          exact hbit hmark
        exact ih (i + 1) (by omega) (by omega)

/-- If no offset in `[i, PAGE_SIZE - 1]` is marked and the scan is asked to
run up to `endv = PAGE_SIZE` inclusive, the loop index reaches `PAGE_SIZE`
and the bitmap read at index `PAGE_SIZE / 8` is out of bounds: the loop
aborts with `none` (a panic). -/
theorem pageRangeLoop_overrun (sp : ShadowPage) :
    ∀ fuel i, i ≤ PAGE_SIZE →
      (∀ j, i ≤ j → j < PAGE_SIZE → pageMarked sp j = false) →
      PAGE_SIZE + 2 - i ≤ fuel →
      pageRangeLoop sp PAGE_SIZE i fuel = none := by
  intro fuel
  induction fuel with
  | zero =>
    intro i hi hclean hfuel
    rw [PAGE_SIZE_eq] at hi hfuel
    omega
  | succ f ih =>
    intro i hi hclean hfuel
    have hiw : i < 2 ^ 64 := by rw [PAGE_SIZE_eq] at hi; omega
    rw [pageRangeLoop_step, if_pos hi]
    by_cases hfin : i = PAGE_SIZE
    · subst hfin
      have hoob : align_8 PAGE_SIZE / 8 = PAGE_SIZE / 8 := align_8_div PAGE_SIZE hiw
      have : ShadowPage.mapGet sp (align_8 PAGE_SIZE / 8) = none := by
        rw [hoob]
        unfold ShadowPage.mapGet
        rw [if_neg (by omega)]
      rw [this]
    · have hlt : i < PAGE_SIZE := by omega
      have hbound : i / 8 < PAGE_SIZE / 8 := by
        rw [PAGE_SIZE_eq] at hlt ⊢; omega
      have hmget : sp.mapGet (align_8 i / 8) = some (sp.map (i / 8)) := by
        rw [align_8_div i hiw]
        unfold ShadowPage.mapGet
        rw [if_pos hbound]
      rw [hmget]
      dsimp only
      by_cases hz : sp.map (i / 8) = 0
      · rw [if_neg (by omega : ¬ sp.map (i / 8) > 0)]
        have hnext : align_next_8 (i + 1) = 8 * (i / 8) + 8 :=
          align_next_8_succ i (by rw [PAGE_SIZE_eq] at hlt; omega)
        rw [hnext]
        have hle : 8 * (i / 8) + 8 ≤ PAGE_SIZE := by
          rw [PAGE_SIZE_eq] at hlt ⊢; omega
        refine ih (8 * (i / 8) + 8) hle ?_ (by omega)
        intro j hj1 hj2
        exact hclean j (by omega) hj2
      · rw [if_pos (by omega : sp.map (i / 8) > 0)]
        have hmask : MASK[i - align_8 i]? = some (2 ^ (i % 8)) := by
          rw [align_8_sub i hiw]
          exact MASK_get (i % 8) (Nat.mod_lt _ (by omega))
        rw [hmask]
        dsimp only
        have hbit : ¬ sp.map (i / 8) &&& 2 ^ (i % 8) ≠ 0 := by
          have := hclean i (le_refl i) hlt
          unfold pageMarked at this
          simpa using this
        rw [if_neg hbit]
        refine ih (i + 1) (by omega) ?_ (by omega)
        intro j hj1 hj2
        exact hclean j (by omega) hj2

/-! Characterization of the manager-level operations. -/

/-- One unfolding of the manager-level page loop. -/
theorem mgrRangeLoop_step (pages : Nat → Option ShadowPage) (beg endv last_page : Nat)
    (cur_page : Nat) (on_first : Bool) (fuel : Nat) :
    mgrRangeLoop pages beg endv last_page cur_page on_first (fuel + 1) =
      match pages cur_page with
      | none => some false
      | some sm =>
        if on_first = true ∧ cur_page = last_page then
          if beg - cur_page = endv - cur_page then sm.has_patch (beg - cur_page)
          else sm.has_patch_in_range (beg - cur_page) (endv - cur_page)
        else if on_first = true then
          match sm.has_patch_in_range (beg - cur_page) PAGE_SIZE with
          | none => none
          | some true => some true
          | some false =>
            if cur_page = last_page then sm.has_patch_in_range 0 (endv - cur_page)
            else mgrRangeLoop pages beg endv last_page (cur_page + PAGE_SIZE) false fuel
        else if cur_page = last_page then
          sm.has_patch_in_range 0 (endv - cur_page)
        else
          mgrRangeLoop pages beg endv last_page (cur_page + PAGE_SIZE) on_first fuel := rfl

/-- `ShadowManager::has_patch` in terms of the page table and the dirty bit. -/
theorem ShadowManager.has_patch_eq (m : ShadowManager) (a : Nat) (h : a < 2 ^ 64) :
    m.has_patch a = some (match m.pages (get_page_offset a) with
      | none => false
      | some sp => pageMarked sp (a % PAGE_SIZE)) := by
  unfold ShadowManager.has_patch
  dsimp only
  cases hp : m.pages (get_page_offset a) with
  | none => rfl
  | some sp =>
    rw [get_page_offset_rel a h]
    exact sp.has_patch_eq_marked _ (Nat.mod_lt _ (by rw [PAGE_SIZE_eq]; omega))

/-- The page produced by `add_byte` on the owning page (the page that was
already there, or a freshly zeroed one): store the byte, set the dirty bit. -/
def patchPage (sp : ShadowPage) (rel_offs byte : Nat) : ShadowPage :=
  { buf := fun j => if j = rel_offs then byte else sp.buf j
    map := fun j =>
      if j = rel_offs / 8 then sp.map (rel_offs / 8) ||| (1 <<< (rel_offs % 8))
      else sp.map j }

/-- `add_byte` updates exactly the owning page's entry of the page table. -/
theorem add_byte_pages_eq (m : ShadowManager) (offset byte : Nat) :
    (m.add_byte offset byte).pages = fun k =>
      if k = get_page_offset offset then
        some (patchPage ((m.pages (get_page_offset offset)).getD ⟨fun _ => 0, fun _ => 0⟩)
          (offset - get_page_offset offset) byte)
      else m.pages k := by
  unfold ShadowManager.add_byte
  dsimp only
  by_cases hex : (m.pages (get_page_offset offset)).isSome = true
  · rw [if_pos hex]
    obtain ⟨sp, hsp⟩ := Option.isSome_iff_exists.mp hex
    rw [hsp]
    dsimp only
    funext k
    dsimp only [patchPage, get_bit_index, Option.getD]
  · rw [if_neg hex]
    have hnone : m.pages (get_page_offset offset) = none :=
      Option.not_isSome_iff_eq_none.mp (by simpa using hex)
    rw [if_pos rfl]
    dsimp only
    funext k
    rw [hnone]
    by_cases hk : k = get_page_offset offset
    · rw [if_pos hk, if_pos hk]
      dsimp only [patchPage, get_bit_index, Option.getD]
    · rw [if_neg hk, if_neg hk, if_neg hk]

/-- Addresses on the same page with distinct in-page offsets. -/
theorem same_page_rel_ne (a b : Nat) (ha : a < 2 ^ 64) (hb : b < 2 ^ 64) (hab : a ≠ b)
    (hpg : get_page_offset a = get_page_offset b) : a % PAGE_SIZE ≠ b % PAGE_SIZE := by
  rw [get_page_offset_eq a ha, get_page_offset_eq b hb, PAGE_SIZE_eq] at hpg
  rw [PAGE_SIZE_eq]
  omega

/-- Setting the dirty bit of one offset does not change the dirty bit of any
other offset of the same page. -/
theorem patchPage_marked_other (sp : ShadowPage) (r1 r2 v : Nat) (h : r1 % PAGE_SIZE ≠ r2 % PAGE_SIZE)
    (h1 : r1 < PAGE_SIZE) (h2 : r2 < PAGE_SIZE) :
    pageMarked (patchPage sp r1 v) r2 = pageMarked sp r2 := by
  rw [Nat.mod_eq_of_lt h1, Nat.mod_eq_of_lt h2] at h
  unfold pageMarked patchPage
  dsimp only
  by_cases hbyte : r2 / 8 = r1 / 8
  · rw [if_pos hbyte, Nat.one_shiftLeft, hbyte]
    have hbits : r1 % 8 ≠ r2 % 8 := by omega
    rw [lor_pow_land_pow _ _ _ hbits]
  · rw [if_neg hbyte]

/-- Recording at `a` does not change `has_patch` at any other `u64` address. -/
theorem add_byte_has_patch_frame (m : ShadowManager) (a b v : Nat)
    (ha : a < 2 ^ 64) (hb : b < 2 ^ 64) (hab : a ≠ b) :
    (m.add_byte a v).has_patch b = m.has_patch b := by
  rw [ShadowManager.has_patch_eq _ b hb, ShadowManager.has_patch_eq m b hb]
  rw [add_byte_pages_eq]
  dsimp only
  by_cases hk : get_page_offset b = get_page_offset a
  · rw [if_pos hk]
    cases hex : m.pages (get_page_offset b) with
    | some sp =>
      rw [hk] at hex
      rw [hex]
      dsimp only [Option.getD]
      rw [get_page_offset_rel a ha]
      rw [patchPage_marked_other sp (a % PAGE_SIZE) (b % PAGE_SIZE) v
        (by
          rw [Nat.mod_mod_of_dvd, Nat.mod_mod_of_dvd]
          · exact same_page_rel_ne a b ha hb hab hk.symm
          · exact Nat.dvd_refl _
          · exact Nat.dvd_refl _)
        (Nat.mod_lt _ (by rw [PAGE_SIZE_eq]; omega))
        (Nat.mod_lt _ (by rw [PAGE_SIZE_eq]; omega))]
    | none =>
      rw [hk] at hex
      rw [hex]
      dsimp only [Option.getD]
      unfold pageMarked patchPage
      dsimp only
      rw [get_page_offset_rel a ha]
      have hrel : a % PAGE_SIZE ≠ b % PAGE_SIZE := same_page_rel_ne a b ha hb hab hk.symm
      by_cases hbyte : b % PAGE_SIZE / 8 = a % PAGE_SIZE / 8
      · rw [if_pos hbyte, Nat.one_shiftLeft, Nat.zero_or]
        have hbits : a % PAGE_SIZE % 8 ≠ b % PAGE_SIZE % 8 := by
          rw [PAGE_SIZE_eq] at hrel hbyte ⊢
          omega
        rw [pow_land_pow_ne _ _ fun hx => hbits hx]
        simp
      · rw [if_neg hbyte]
        simp
  · rw [if_neg hk]

/-! The source repository's own test suite, replayed against the embedding.
These mirror `test_range_1` .. `align_9` from `src/main.rs` and pin down that
the embedding computes what the code computes. -/

theorem src_test_range_1 :
    (ShadowManager.new.add_byte 1000 1).has_patch_in_range 999 1001 = some true := by decide

theorem src_test_range_2 :
    (ShadowManager.new.add_byte 1000 1).has_patch_in_range 1000 1000 = some true := by decide

theorem src_test_range_3 :
    (ShadowManager.new.add_byte 1000 1).has_patch_in_range 1001 1001 = some false := by decide

theorem src_test_range_4 :
    (ShadowManager.new.add_byte 1000 1).has_patch_in_range 500 700 = some false := by decide

theorem src_test_range_5 :
    (ShadowManager.new.add_byte 1 1).has_patch_in_range 0 1 = some true := by decide

theorem src_test_0 :
    (ShadowManager.new.add_byte 0 1).has_patch 0 = some true := by decide

theorem src_test_range_0 :
    (ShadowManager.new.add_byte 0 1).has_patch_in_range 0 0 = some true := by decide

theorem src_test_range_0a :
    (ShadowManager.new.add_byte 0 1).has_patch_in_range 0 1 = some true := by decide

theorem src_test_range_0b :
    (ShadowManager.new.add_byte 0 1).has_patch_in_range 0 5 = some true := by decide

theorem src_test_1 :
    (ShadowManager.new.add_byte 1000 1).has_patch 1000 = some true := by decide

theorem src_align_tests :
    align_8 0 = 0 ∧ align_8 1 = 0 ∧ align_8 7 = 0 ∧ align_8 8 = 8 ∧ align_8 9 = 8 ∧
    align_next_8 0 = 0 ∧ align_next_8 1 = 8 ∧ align_next_8 8 = 8 ∧ align_next_8 9 = 16 := by
  decide

/-! Range queries confined to a single page. -/

/-- If `begin` and `end` lie on the same page and some address marked in the
manager lies between them, the range query reports a hit. -/
theorem has_patch_in_range_single_page (m : ShadowManager) (beg a endv : Nat)
    (h1 : beg ≤ a) (h2 : a ≤ endv) (hend : endv < 2 ^ 64)
    (hpg : get_page_offset beg = get_page_offset endv)
    (hmk : m.has_patch a = some true) :
    m.has_patch_in_range beg endv = some true := by
  have ha : a < 2 ^ 64 := by omega
  have hbeg : beg < 2 ^ 64 := by omega
  have hpga : get_page_offset a = get_page_offset beg := by
    have l1 := get_page_offset_mono beg a h1 ha
    have l2 := get_page_offset_mono a endv h2 hend
    omega
  rw [ShadowManager.has_patch_eq m a ha] at hmk
  rw [hpga] at hmk
  cases hp : m.pages (get_page_offset beg) with
  | none => rw [hp] at hmk; simp at hmk
  | some sp =>
    rw [hp] at hmk
    simp only [Option.some_inj] at hmk
    have hple : get_page_offset beg ≤ beg := get_page_offset_le beg hbeg
    have hpa : get_page_offset beg ≤ a := by
      have := get_page_offset_le a ha
      omega
    have hrel_a : a - get_page_offset beg = a % PAGE_SIZE := by
      rw [← hpga]; exact get_page_offset_rel a ha
    have hrel_e : endv - get_page_offset beg = endv % PAGE_SIZE := by
      rw [hpg]; exact get_page_offset_rel endv hend
    unfold ShadowManager.has_patch_in_range
    dsimp only
    rw [← hpg, Nat.sub_self, Nat.zero_div]
    rw [mgrRangeLoop_step, hp]
    dsimp only
    rw [if_pos ⟨rfl, rfl⟩]
    by_cases hbe : beg - get_page_offset beg = endv - get_page_offset beg
    · rw [if_pos hbe]
      have haeq : a = beg := by omega
      subst haeq
      rw [hrel_a]
      rw [sp.has_patch_eq_marked _ (Nat.mod_lt _ (by rw [PAGE_SIZE_eq]; omega))]
      rw [hmk]
    · rw [if_neg hbe]
      unfold ShadowPage.has_patch_in_range
      refine pageRangeLoop_finds sp (endv - get_page_offset beg) (a - get_page_offset beg)
        ?_ (by omega) ?_ _ (beg - get_page_offset beg) (by omega) (by omega)
      · rw [hrel_a, PAGE_SIZE_eq]
        omega
      · rw [hrel_a]
        exact hmk

/-- A one-point range query takes exactly the same path as the point query. -/
theorem has_patch_in_range_point (m : ShadowManager) (a : Nat) :
    m.has_patch_in_range a a = m.has_patch a := by
  unfold ShadowManager.has_patch_in_range ShadowManager.has_patch
  dsimp only
  rw [Nat.sub_self, Nat.zero_div]
  rw [mgrRangeLoop_step]
  cases hp : m.pages (get_page_offset a) with
  | none => rfl
  | some sp =>
    dsimp only
    rw [if_pos ⟨rfl, rfl⟩, if_pos rfl]

/-! The claims. -/

/-- C1, counterexample: recording at `0x1000` marks that address, `0x1000`
lies inside the range `[0, 0x1000]`, yet the range query answers `false`
(page `0` was never allocated, and the missing first page short-circuits the
whole query), refuting unrestricted monotonic range containment. -/
theorem c1_range_containment_counterexample :
    (ShadowManager.new.add_byte 0x1000 1).has_patch 0x1000 = some true ∧
    (0 : Nat) ≤ 0x1000 ∧ (0x1000 : Nat) ≤ 0x1000 ∧
    (ShadowManager.new.add_byte 0x1000 1).has_patch_in_range 0 0x1000 = some false := by
  decide

/-- C1, amended: monotonic range containment holds whenever `begin` and `end`
lie on the same page: for every state reachable by record operations, if
`is_marked(a) == true` and `begin ≤ a ≤ end` with
`page_base(begin) = page_base(end)`, then `is_marked_in_range(begin, end)`
returns `true`. -/
theorem c1_single_page_containment (ops : List (Nat × Nat)) (beg a endv : Nat)
    (hops : ValidOps ops) (h1 : beg ≤ a) (h2 : a ≤ endv) (hend : endv < 2 ^ 64)
    (hpg : get_page_offset beg = get_page_offset endv)
    (hmk : (runOps ops).has_patch a = some true) :
    (runOps ops).has_patch_in_range beg endv = some true :=
  has_patch_in_range_single_page (runOps ops) beg a endv h1 h2 hend hpg hmk

theorem c1_single_page_containment_witness :
    (runOps [(0x10, 1)]).has_patch_in_range 0x8 0x20 = some true :=
  c1_single_page_containment [(0x10, 1)] 0x8 0x10 0x20 (by decide) (by decide)
    (by decide) (by decide) (by decide) (by decide)

/-- C2 fails on the code: after recording only at address `0`, the in-range
query `[0xFFE, 0x1000]` spans two pages; the first-page sub-scan is invoked
with the inclusive upper bound `PAGE_SIZE` itself (not `PAGE_SIZE - 1`), the
loop index reaches `PAGE_SIZE`, and the bitmap is read at index
`PAGE_SIZE / 8 = 512`, one past its last element: the query panics (`none`)
instead of staying in bounds. -/
theorem c2_first_page_scan_out_of_bounds :
    (ShadowManager.new.add_byte 0 1).has_patch_in_range 0xFFE 0x1000 = none := by
  decide

/-- C3: whenever the page-by-page loop of `is_marked_in_range` reaches a base
address whose page is missing, it returns `false` at once, independently of
every other page in the span; in particular a missing first page makes the
whole query return `false` regardless of the rest of the state. -/
theorem c3_missing_page_short_circuit :
    (∀ (pages : Nat → Option ShadowPage) (beg endv last_page cur_page : Nat)
      (on_first : Bool) (fuel : Nat), 1 ≤ fuel → pages cur_page = none →
      mgrRangeLoop pages beg endv last_page cur_page on_first fuel = some false) ∧
    (∀ (m : ShadowManager) (beg endv : Nat), m.pages (get_page_offset beg) = none →
      m.has_patch_in_range beg endv = some false) := by
  constructor
  · intro pages beg endv last_page cur_page on_first fuel hf hnone
    obtain ⟨f, rfl⟩ : ∃ f, fuel = f + 1 := ⟨fuel - 1, by omega⟩
    rw [mgrRangeLoop_step, hnone]
  · intro m beg endv hnone
    unfold ShadowManager.has_patch_in_range
    dsimp only
    rw [mgrRangeLoop_step, hnone]

theorem c3_missing_page_short_circuit_witness :
    (ShadowManager.new.add_byte 0x1800 1).has_patch 0x1800 = some true ∧
    (ShadowManager.new.add_byte 0x1800 1).has_patch_in_range 0x800 0x1FFF = some false :=
  ⟨by decide, c3_missing_page_short_circuit.2 (ShadowManager.new.add_byte 0x1800 1)
    0x800 0x1FFF (by rfl)⟩

/-- C6: a patch recorded one byte before a page boundary is found by a range
query straddling that boundary, even though the second page was never
allocated (the hit on the first page returns before the missing page is
consulted). -/
theorem c6_cross_page_range (v : Nat) (hv : v < 256) :
    (ShadowManager.new.add_byte 0xFFF v).has_patch_in_range 0xFFE 0x1000 = some true := by
  unfold ShadowManager.has_patch_in_range
  dsimp only
  rw [show get_page_offset 0xFFE = 0 from by decide,
    show get_page_offset 0x1000 = 0x1000 from by decide]
  rw [mgrRangeLoop_step, add_byte_pages_eq,
    show get_page_offset 0xFFF = 0 from by decide]
  dsimp only
  rw [if_pos rfl]
  dsimp only
  rw [if_neg (by intro h; exact absurd h.2 (by decide))]
  rw [if_pos rfl]
  have hfind : ShadowPage.has_patch_in_range
      (patchPage ((ShadowManager.new.pages 0).getD ⟨fun _ => 0, fun _ => 0⟩) (0xFFF - 0) v)
      (0xFFE - 0) PAGE_SIZE = some true := by
    unfold ShadowPage.has_patch_in_range
    refine pageRangeLoop_finds _ PAGE_SIZE 0xFFF (by decide) (by decide) ?_ _ (0xFFE - 0)
      (by norm_num) (by norm_num)
    unfold pageMarked patchPage ShadowManager.new
    dsimp only [Option.getD]
    decide
  rw [hfind]

theorem c6_cross_page_range_witness :
    (0xA1 : Nat) < 256 ∧
    (ShadowManager.new.add_byte 0xFFF 0xA1).has_patch_in_range 0xFFE 0x1000 = some true :=
  ⟨by decide, c6_cross_page_range 0xA1 (by decide)⟩

/-- C7: a one-point range query `is_marked_in_range(a, a)` gives exactly the
answer of the point query `is_marked(a)`, on every state reachable by record
operations. -/
theorem c7_point_range (ops : List (Nat × Nat)) (a : Nat)
    (hops : ValidOps ops) (ha : a < 2 ^ 64) :
    (runOps ops).has_patch_in_range a a = (runOps ops).has_patch a :=
  has_patch_in_range_point (runOps ops) a

theorem c7_point_range_witness :
    (runOps [(0, 1)]).has_patch_in_range 0 0 = (runOps [(0, 1)]).has_patch 0 :=
  c7_point_range [(0, 1)] 0 (by decide) (by decide)

/-- C5: immediately after `record(a, v)` the address is marked and the owning
page's buffer holds `v` at offset `a mod PAGE_SIZE`, on any starting state. -/
theorem c5_record_then_query (m : ShadowManager) (a v : Nat)
    (ha : a < 2 ^ 64) (hv : v < 256) :
    (m.add_byte a v).has_patch a = some true ∧
    stored_byte (m.add_byte a v) a = some v := by
  have hrel : a - get_page_offset a = a % PAGE_SIZE := get_page_offset_rel a ha
  have hlt : a % PAGE_SIZE < PAGE_SIZE := Nat.mod_lt _ (by rw [PAGE_SIZE_eq]; omega)
  constructor
  · rw [ShadowManager.has_patch_eq _ a ha, add_byte_pages_eq]
    dsimp only
    rw [if_pos rfl]
    dsimp only
    unfold pageMarked patchPage
    dsimp only
    rw [hrel, if_pos rfl, Nat.one_shiftLeft]
    simp only [Option.some_inj, decide_eq_true_eq]
    exact lor_pow_land_pow_self _ _
  · unfold stored_byte
    rw [add_byte_pages_eq]
    dsimp only
    rw [if_pos rfl]
    dsimp only [patchPage, ShadowPage.bufGet]
    rw [if_pos hlt, hrel, if_pos rfl]

theorem c5_record_then_query_witness :
    (ShadowManager.new.add_byte 5 7).has_patch 5 = some true ∧
    stored_byte (ShadowManager.new.add_byte 5 7) 5 = some 7 :=
  c5_record_then_query ShadowManager.new 5 7 (by decide) (by decide)

/-- C10: recording at `a` does not change what the manager reports or stores
for any other address `b`: the mark is unchanged, and when `b`'s page already
exists, the byte stored for `b` is unchanged. -/
theorem c10_record_frame (m : ShadowManager) (a b v : Nat)
    (ha : a < 2 ^ 64) (hb : b < 2 ^ 64) (hab : a ≠ b) :
    (m.add_byte a v).has_patch b = m.has_patch b ∧
    ((m.pages (get_page_offset b)).isSome = true →
      stored_byte (m.add_byte a v) b = stored_byte m b) := by
  refine ⟨add_byte_has_patch_frame m a b v ha hb hab, ?_⟩
  intro hex
  obtain ⟨sp, hsp⟩ := Option.isSome_iff_exists.mp hex
  unfold stored_byte
  rw [add_byte_pages_eq]
  dsimp only
  rw [hsp]
  by_cases hk : get_page_offset b = get_page_offset a
  · rw [if_pos hk]
    have hsp2 : m.pages (get_page_offset a) = some sp := by rw [← hk]; exact hsp
    rw [hsp2]
    dsimp only [Option.getD, patchPage, ShadowPage.bufGet]
    have hlt : b % PAGE_SIZE < PAGE_SIZE := Nat.mod_lt _ (by rw [PAGE_SIZE_eq]; omega)
    rw [if_pos hlt, if_pos hlt]
    have hrelne : b % PAGE_SIZE ≠ a - get_page_offset a := by
      rw [get_page_offset_rel a ha]
      exact fun hx => same_page_rel_ne a b ha hb hab hk.symm hx.symm
    rw [if_neg hrelne]
  · rw [if_neg hk]

theorem c10_record_frame_witness :
    ((ShadowManager.new.add_byte 0 1).add_byte 5 9).has_patch 0 =
      (ShadowManager.new.add_byte 0 1).has_patch 0 ∧
    stored_byte ((ShadowManager.new.add_byte 0 1).add_byte 5 9) 0 =
      stored_byte (ShadowManager.new.add_byte 0 1) 0 := by
  have h := c10_record_frame (ShadowManager.new.add_byte 0 1) 5 0 9
    (by decide) (by decide) (by decide)
  exact ⟨h.1, h.2 (by decide)⟩

/-- Replaying records never sets a mark at an address none of them named. -/
theorem runOpsFrom_has_patch_false (a : Nat) (ha : a < 2 ^ 64) :
    ∀ (ops : List (Nat × Nat)) (m : ShadowManager), ValidOps ops →
      (∀ p ∈ ops, p.1 ≠ a) → m.has_patch a = some false →
      (runOpsFrom m ops).has_patch a = some false := by
  intro ops
  induction ops with
  | nil => intro m _ _ h; exact h
  | cons q rest ih =>
    intro m hops hne h
    have hq := hops q (List.mem_cons_self q rest)
    have hqa := hne q (List.mem_cons_self q rest)
    have hstep : runOpsFrom m (q :: rest) = runOpsFrom (m.add_byte q.1 q.2) rest := rfl
    rw [hstep]
    refine ih (m.add_byte q.1 q.2) (fun p hp => hops p (List.mem_cons_of_mem q hp))
      (fun p hp => hne p (List.mem_cons_of_mem q hp)) ?_
    rw [add_byte_has_patch_frame m q.1 a q.2 hq.1 ha hqa]
    exact h

/-- C8: an address never passed to `record` is reported unmarked. -/
theorem c8_unrecorded_address_unmarked (ops : List (Nat × Nat)) (a : Nat)
    (hops : ValidOps ops) (ha : a < 2 ^ 64) (hne : ∀ p ∈ ops, p.1 ≠ a) :
    (runOps ops).has_patch a = some false :=
  runOpsFrom_has_patch_false a ha ops ShadowManager.new hops hne rfl

theorem c8_unrecorded_address_unmarked_witness :
    (runOps [(3, 1)]).has_patch 9 = some false :=
  c8_unrecorded_address_unmarked [(3, 1)] 9 (by decide) (by decide) (by decide)

/-! Page-table invariants under record sequences. -/

theorem add_byte_pages_isSome (m : ShadowManager) (offset byte k : Nat) :
    ((m.add_byte offset byte).pages k).isSome = true ↔
      k = get_page_offset offset ∨ (m.pages k).isSome = true := by
  rw [add_byte_pages_eq]
  dsimp only
  by_cases hk : k = get_page_offset offset
  · rw [if_pos hk]
    simp [hk]
  · rw [if_neg hk]
    simp [hk]

theorem runOpsFrom_pages_isSome :
    ∀ (ops : List (Nat × Nat)) (m : ShadowManager) (k : Nat),
      ((runOpsFrom m ops).pages k).isSome = true ↔
        (m.pages k).isSome = true ∨ ∃ p, p ∈ ops ∧ get_page_offset p.1 = k := by
  intro ops
  induction ops with
  | nil =>
    intro m k
    simp [runOpsFrom]
  | cons q rest ih =>
    intro m k
    have hstep : runOpsFrom m (q :: rest) = runOpsFrom (m.add_byte q.1 q.2) rest := rfl
    rw [hstep, ih, add_byte_pages_isSome]
    constructor
    · rintro ((hk | hs) | ⟨p, hp, hpk⟩)
      · exact Or.inr ⟨q, List.mem_cons_self q rest, hk.symm⟩
      · exact Or.inl hs
      · exact Or.inr ⟨p, List.mem_cons_of_mem q hp, hpk⟩
    · rintro (hs | ⟨p, hp, hpk⟩)
      · exact Or.inl (Or.inr hs)
      · rcases List.mem_cons.mp hp with hpq | hpr
        · subst hpq
          exact Or.inl (Or.inl hpk.symm)
        · exact Or.inr ⟨p, hpr, hpk⟩

theorem runOpsFrom_pages_aligned :
    ∀ (ops : List (Nat × Nat)) (m : ShadowManager), ValidOps ops →
      (∀ k, (m.pages k).isSome = true → k % PAGE_SIZE = 0) →
      ∀ k, ((runOpsFrom m ops).pages k).isSome = true → k % PAGE_SIZE = 0 := by
  intro ops
  induction ops with
  | nil => intro m _ h k; exact h k
  | cons q rest ih =>
    intro m hops hinv k
    have hstep : runOpsFrom m (q :: rest) = runOpsFrom (m.add_byte q.1 q.2) rest := rfl
    rw [hstep]
    refine ih (m.add_byte q.1 q.2) (fun p hp => hops p (List.mem_cons_of_mem q hp)) ?_ k
    intro k2 hk2
    rcases (add_byte_pages_isSome m q.1 q.2 k2).mp hk2 with hk | hold
    · subst hk
      exact get_page_offset_mod q.1 (hops q (List.mem_cons_self q rest)).1
    · exact hinv k2 hold

theorem runOpsFrom_pages_nonzero :
    ∀ (ops : List (Nat × Nat)) (m : ShadowManager), ValidOps ops →
      (∀ k sp, m.pages k = some sp → ∃ i, i < PAGE_SIZE / 8 ∧ sp.map i ≠ 0) →
      ∀ k sp, (runOpsFrom m ops).pages k = some sp →
        ∃ i, i < PAGE_SIZE / 8 ∧ sp.map i ≠ 0 := by
  intro ops
  induction ops with
  | nil => intro m _ h; exact h
  | cons q rest ih =>
    intro m hops hinv
    have hstep : runOpsFrom m (q :: rest) = runOpsFrom (m.add_byte q.1 q.2) rest := rfl
    rw [hstep]
    refine ih (m.add_byte q.1 q.2) (fun p hp => hops p (List.mem_cons_of_mem q hp)) ?_
    intro k sp hk
    rw [add_byte_pages_eq] at hk
    dsimp only at hk
    by_cases hkk : k = get_page_offset q.1
    · rw [if_pos hkk] at hk
      have hq1 : q.1 < 2 ^ 64 := (hops q (List.mem_cons_self q rest)).1
      simp only [Option.some_inj] at hk
      subst hk
      refine ⟨(q.1 - get_page_offset q.1) / 8, ?_, ?_⟩
      · rw [get_page_offset_rel q.1 hq1, PAGE_SIZE_eq]
        have : q.1 % 4096 < 4096 := Nat.mod_lt _ (by omega)
        omega
      · unfold patchPage
        dsimp only
        rw [if_pos rfl, Nat.one_shiftLeft]
        exact lor_pow_ne_zero _ _
    · rw [if_neg hkk] at hk
      exact hinv k sp hk

/-- C9: after any valid record sequence, every page-table key is page-aligned;
a page is present at `k` exactly when some recorded address lies on that page;
and every stored page has at least one nonzero bitmap byte (some dirty bit
set). -/
theorem c9_page_table_invariant (ops : List (Nat × Nat)) (hops : ValidOps ops) :
    (∀ k, ((runOps ops).pages k).isSome = true → k % PAGE_SIZE = 0) ∧
    (∀ k, ((runOps ops).pages k).isSome = true ↔
      ∃ p, p ∈ ops ∧ get_page_offset p.1 = k) ∧
    (∀ k sp, (runOps ops).pages k = some sp →
      ∃ i, i < PAGE_SIZE / 8 ∧ sp.map i ≠ 0) := by
  refine ⟨?_, ?_, ?_⟩
  · exact runOpsFrom_pages_aligned ops ShadowManager.new hops
      (fun k h => by simp [ShadowManager.new] at h)
  · intro k
    rw [runOps, runOpsFrom_pages_isSome ops ShadowManager.new k]
    simp [ShadowManager.new]
  · exact runOpsFrom_pages_nonzero ops ShadowManager.new hops
      (fun k sp h => by simp [ShadowManager.new] at h)

theorem c9_page_table_invariant_witness :
    (0x1000 : Nat) % PAGE_SIZE = 0 ∧
    ((runOps [(0x1005, 2)]).pages 0x1000).isSome = true := by
  have h := c9_page_table_invariant [(0x1005, 2)] (by decide)
  refine ⟨?_, ?_⟩
  · exact h.1 0x1000 ((h.2.1 0x1000).mpr ⟨(0x1005, 2), by decide, by decide⟩)
  · exact (h.2.1 0x1000).mpr ⟨(0x1005, 2), by decide, by decide⟩

/-- C4, counterexample: all three pages covering `[0x800, 0x27FF]` are
allocated, the only patch inside the range (`0x1800`) is on the interior
page, yet the query does not return `false`: it overruns the first page's
bitmap and panics (`none`). -/
theorem c4_interior_patch_counterexample :
    (runOps [(0x10, 1), (0x1800, 1), (0x2FF0, 1)]).has_patch 0x1800 = some true ∧
    ((runOps [(0x10, 1), (0x1800, 1), (0x2FF0, 1)]).pages 0x0).isSome = true ∧
    ((runOps [(0x10, 1), (0x1800, 1), (0x2FF0, 1)]).pages 0x1000).isSome = true ∧
    ((runOps [(0x10, 1), (0x1800, 1), (0x2FF0, 1)]).pages 0x2000).isSome = true ∧
    ¬ ((runOps [(0x10, 1), (0x1800, 1), (0x2FF0, 1)]).has_patch_in_range 0x800 0x27FF =
      some false) := by
  decide

/-- C4, amended: when a range spans at least three pages, every covering page
is allocated, and the only patched addresses inside the range lie on pages
strictly between the first and the last page of the span, the query never
reports those interior patches; instead of answering `false`, the head
sub-range check of the first page runs up to offset `PAGE_SIZE` inclusive,
overruns the page bitmap and panics (`none`), so no interior page is ever
tested. -/
theorem c4_interior_pages_never_tested (m : ShadowManager) (beg endv : Nat)
    (h1 : beg ≤ endv) (h2 : endv < 2 ^ 64)
    (hspan : get_page_offset beg + 2 * PAGE_SIZE ≤ get_page_offset endv)
    (halloc : ∀ p, p ≤ get_page_offset endv → get_page_offset beg ≤ p →
      p % PAGE_SIZE = 0 → (m.pages p).isSome = true)
    (hinterior : ∀ a, a ≤ endv → beg ≤ a → m.has_patch a = some true →
      get_page_offset beg < get_page_offset a ∧
        get_page_offset a < get_page_offset endv) :
    m.has_patch_in_range beg endv = none := by
  have hps : 0 < PAGE_SIZE := by rw [PAGE_SIZE_eq]; omega
  have hbeg : beg < 2 ^ 64 := by omega
  have hple : get_page_offset beg ≤ beg := get_page_offset_le beg hbeg
  have hpend : get_page_offset endv ≤ endv := get_page_offset_le endv h2
  have hbmod : get_page_offset beg % PAGE_SIZE = 0 := get_page_offset_mod beg hbeg
  have hfirst : (m.pages (get_page_offset beg)).isSome = true :=
    halloc _ (by omega) (le_refl _) hbmod
  obtain ⟨sp, hsp⟩ := Option.isSome_iff_exists.mp hfirst
  have hrelb : beg - get_page_offset beg = beg % PAGE_SIZE := get_page_offset_rel beg hbeg
  have hbm : beg % PAGE_SIZE < PAGE_SIZE := Nat.mod_lt _ (by omega)
  have hclean : ∀ j, beg - get_page_offset beg ≤ j → j < PAGE_SIZE →
      pageMarked sp j = false := by
    intro j hj1 hj2
    cases hx : pageMarked sp j with
    | false => rfl
    | true =>
      exfalso
      have haddr : get_page_offset beg + j < 2 ^ 64 := by omega
      have hpga : get_page_offset (get_page_offset beg + j) = get_page_offset beg :=
        get_page_offset_add _ j hbmod hj2 haddr
      have hmod : (get_page_offset beg + j) % PAGE_SIZE = j := by
        rw [PAGE_SIZE_eq] at hbmod hj2 ⊢
        omega
      have hpatch : m.has_patch (get_page_offset beg + j) = some true := by
        rw [ShadowManager.has_patch_eq m _ haddr, hpga, hsp]
        dsimp only
        rw [hmod, hx]
      have hint := hinterior (get_page_offset beg + j) (by omega) (by omega) hpatch
      rw [hpga] at hint
      omega
  unfold ShadowManager.has_patch_in_range
  dsimp only
  rw [mgrRangeLoop_step, hsp]
  dsimp only
  rw [if_neg (fun h => by have hx := h.2; omega)]
  rw [if_pos rfl]
  have hover : sp.has_patch_in_range (beg - get_page_offset beg) PAGE_SIZE = none := by
    unfold ShadowPage.has_patch_in_range
    exact pageRangeLoop_overrun sp (PAGE_SIZE + 2) (beg - get_page_offset beg)
      (by omega) hclean (by omega)
  rw [hover]

theorem c4_interior_pages_never_tested_witness :
    (runOps [(0x10, 1), (0x1800, 1), (0x2FF0, 1)]).has_patch_in_range 0x800 0x27FF =
      none := by
  refine c4_interior_pages_never_tested (runOps [(0x10, 1), (0x1800, 1), (0x2FF0, 1)])
    0x800 0x27FF (by decide) (by decide) (by decide) ?_ ?_
  · intro p h1 h2 h3
    rw [show get_page_offset 0x27FF = 0x2000 from by decide] at h1
    rw [PAGE_SIZE_eq] at h3
    have hp3 : p = 0 ∨ p = 0x1000 ∨ p = 0x2000 := by omega
    rcases hp3 with rfl | rfl | rfl <;> decide
  · intro a h1 h2 hp
    by_cases ha : a = 0x1800
    · subst ha
      decide
    · exfalso
      have hfalse : (runOps [(0x10, 1), (0x1800, 1), (0x2FF0, 1)]).has_patch a =
          some false := by
        refine runOpsFrom_has_patch_false a (by omega)
          [(0x10, 1), (0x1800, 1), (0x2FF0, 1)] ShadowManager.new (by decide) ?_ rfl
        intro p hp2
        simp only [List.mem_cons, List.not_mem_nil, or_false] at hp2
        rcases hp2 with rfl | rfl | rfl
        · intro he
          omega
        · exact ha ∘ Eq.symm
        · intro he
          omega
      rw [hp] at hfalse
      simp at hfalse

end Shadowmap

